import Mathlib

/-!
# Verification of the screenshot-classification and corpus-assembly pipeline

Shallow embedding of `src/utils.py` (classes `TweetCompiler`,
`TrumpTweetCompiler`; functions `dedupe_combined_tweets_list`,
`create_combined_corpus`).

Modelling conventions:
* Python `str` becomes Lean `String`; string helpers (`strip`, `replace`,
  suffix tests) are implemented over `String.data` so that concrete
  evaluations reduce in the kernel.
* The concrete regular expressions of the catalog all have the shape
  `.* <word-set>$` (scoring, via `re.match`) respectively `.* <word-set>`
  (cleaning, `re.sub` after `rstrip("$")`).  For newline-free OCR fragments
  `re.match(".* W$", s)` holds exactly when `s` ends with one of the words
  of the set preceded by a space, and `re.sub(".* W", "", s)` removes the
  prefix of `s` up to and including the last such occurrence.  A
  `PostRegex` packages those two operations.
* Python `dict[str, int]` (insertion ordered, one entry per key) becomes an
  association list maintained by `dictInsert` (update in place, append new
  keys at the tail), so the list length is the number of distinct keys,
  matching Python's `len(dict)`.
* `random.randrange` draws are supplied by the caller as an explicit stream
  `draws : ℕ → ℕ`; `randrange(n)` consumes one element `d` and yields
  `d % n`, failing like Python (`ValueError`) when `n = 0`.
* The external fuzzywuzzy similarity `fuzz.ratio` is an explicit parameter
  `ratio : String → String → ℕ` (a 0–100 score) of the deduplicator.
* The external dateutil parser is an explicit oracle
  `dparse : String → Bool` (`true` iff `dateutil.parser.parse` succeeds);
  theorems that depend on a concrete dateutil fact hypothesise it.
-/

set_option maxRecDepth 100000

instance {ε α : Type} [DecidableEq ε] [DecidableEq α] :
    DecidableEq (Except ε α) := fun a b =>
  match a, b with
  | Except.ok x, Except.ok y =>
      if h : x = y then isTrue (by rw [h])
      else isFalse (fun hh => h (by injection hh))
  | Except.error e, Except.error f =>
      if h : e = f then isTrue (by rw [h])
      else isFalse (fun hh => h (by injection hh))
  | Except.ok _, Except.error _ => isFalse (fun hh => Except.noConfusion hh)
  | Except.error _, Except.ok _ => isFalse (fun hh => Except.noConfusion hh)

/-! ## String helpers (Python semantics) -/

/-- Whitespace as removed by Python's `str.strip()` (ASCII fragment). -/
def isPyWs (c : Char) : Bool :=
  c = ' ' || c = '\t' || c = '\n' || c = '\r' || c = '\x0b' || c = '\x0c'

/-- Python `s.strip()`: remove leading and trailing whitespace. -/
def pyStrip (s : String) : String :=
  ⟨((s.data.dropWhile isPyWs).reverse.dropWhile isPyWs).reverse⟩

/-- Does `s` end with one of the given words? -/
def strEndsWithOneOf (pats : List String) (s : String) : Bool :=
  pats.any (fun p => p.data.isSuffixOf s.data)

/-- Remove the prefix of `s` up to and including the last occurrence of one
of the given words: the effect of `re.sub(".* W", "", s)` on a
newline-free string, where `W` is the word set. -/
def lastStripAfter (pats : List String) (s : String) : String :=
  match (List.range (s.data.length + 1)).reverse.find?
      (fun k => pats.any (fun p => p.data.isSuffixOf (s.data.take k))) with
  | some k => ⟨s.data.drop k⟩
  | none => s

/-- The two operations the source performs with one regex pattern string:
`re.match(pattern, ·)` for scoring and `re.sub(pattern.rstrip("$"), "", ·)`
for cleaning. -/
structure PostRegex where
  accepts : String → Bool
  stripAll : String → String

/-- A `.* (w₁|…|wₖ)$`-shaped pattern, given the word set with its leading
space. -/
def mkSuffixRegex (pats : List String) : PostRegex :=
  ⟨strEndsWithOneOf pats, lastStripAfter pats⟩

/-! ## Characteristic catalog (`ExpectedPostCharacteristicInfo`) -/

/-- The named tuple `ExpectedPostCharacteristicInfo` of `utils.py`. -/
structure ExpectedPostCharacteristicInfo where
  regex : Option PostRegex
  position_threshold : ℕ
  from_end : Bool

def REPLIES : String := "replies"
def RETWEETS : String := "retweets"
def QUOTES : String := "quotes"
def BOOKMARKS : String := "bookmarks"
def LIKES : String := "likes"

/-- Pattern `.* (r|R)epl(y|ies)$`. -/
def repliesRegex : PostRegex :=
  mkSuffixRegex [" reply", " replies", " Reply", " Replies"]

/-- Pattern `.* ReTruths?$`. -/
def retruthsRegex : PostRegex := mkSuffixRegex [" ReTruth", " ReTruths"]

/-- Pattern `.* (l|L)ikes?$`. -/
def untruthLikesRegex : PostRegex :=
  mkSuffixRegex [" like", " likes", " Like", " Likes"]

/-- Pattern `.* Reposts?$`. -/
def repostsRegex : PostRegex := mkSuffixRegex [" Repost", " Reposts"]

/-- Pattern `.* Quotes?$`. -/
def twixQuotesRegex : PostRegex := mkSuffixRegex [" Quote", " Quotes"]

/-- Pattern `.* Likes?$`. -/
def twixLikesRegex : PostRegex := mkSuffixRegex [" Like", " Likes"]

/-- Pattern `.* Bookmarks?$`. -/
def bookmarksRegex : PostRegex := mkSuffixRegex [" Bookmark", " Bookmarks"]

/-- The method `TweetCompiler.get_untruth_social_generics` (non-degenerate case: both
name and handle configured).  The dict literal becomes an ordered
association list. -/
def get_untruth_social_generics (full_name handle : String)
    (position_threshold : ℕ) :
    List (String × ExpectedPostCharacteristicInfo) :=
  [("Truth Details", ⟨none, position_threshold, false⟩),
   (REPLIES, ⟨some repliesRegex, position_threshold + 1, false⟩),
   (full_name, ⟨none, position_threshold + 2, false⟩),
   (handle, ⟨none, position_threshold + 3, false⟩),
   (RETWEETS, ⟨some retruthsRegex, position_threshold + 1, true⟩),
   (LIKES, ⟨some untruthLikesRegex, position_threshold, true⟩)]

/-- The method `TweetCompiler.get_twix_generics` (non-degenerate case). -/
def get_twix_generics (full_name handle : String) (position_threshold : ℕ) :
    List (String × ExpectedPostCharacteristicInfo) :=
  [(full_name, ⟨none, position_threshold, false⟩),
   (handle, ⟨none, position_threshold + 1, false⟩),
   (RETWEETS, ⟨some repostsRegex, position_threshold + 3, true⟩),
   (QUOTES, ⟨some twixQuotesRegex, position_threshold + 2, true⟩),
   (LIKES, ⟨some twixLikesRegex, position_threshold + 1, true⟩),
   (BOOKMARKS, ⟨some bookmarksRegex, position_threshold, true⟩)]

/-- The Untruth Social profile of `TrumpTweetCompiler`
(`position_threshold = 5` is the class default). -/
def trumpUntruthGenerics : List (String × ExpectedPostCharacteristicInfo) :=
  get_untruth_social_generics "Donald J. Trump" "@realDonaldTrump" 5

/-- The Twitter/X profile of `TrumpTweetCompiler`. -/
def trumpTwixGenerics : List (String × ExpectedPostCharacteristicInfo) :=
  get_twix_generics "Donald J. Trump" "@realDonaldTrump" 5

/-- The catalog `chain(untruth_social_generics.items(), twix_generics.items())`
as iterated by `clean_extracted_texts` for the Trump compiler. -/
def trumpCombinedGenerics : List (String × ExpectedPostCharacteristicInfo) :=
  trumpUntruthGenerics ++ trumpTwixGenerics

/-! ## Python dict model -/

/-- Lookup in an insertion-ordered dict. -/
def dictGet (k : String) : List (String × ℕ) → Option ℕ
  | [] => none
  | (k', v) :: rest => if k' = k then some v else dictGet k rest

/-- Assignment `d[k] = v`: update in place if present, append otherwise. -/
def dictInsert (k : String) (v : ℕ) : List (String × ℕ) → List (String × ℕ)
  | [] => [(k, v)]
  | (k', v') :: rest =>
      if k' = k then (k, v) :: rest else (k', v') :: dictInsert k v rest

/-! ## Position Indexer
(the first loop of `TweetCompiler.is_probably_their_platform_post`) -/

/-- The regex tier of the indexing loop body: every *unclaimed* regex
characteristic is tested against the trimmed fragment; on a match its key
is recorded at the current index and marked claimed.  The state is the
positions dict paired with the list of claimed characteristic names
(`regex_characteristics_found`). -/
def regexStep (word_group : String) (index : ℕ)
    (st : List (String × ℕ) × List String)
    (entry : String × ExpectedPostCharacteristicInfo) :
    List (String × ℕ) × List String :=
  match entry.2.regex with
  | some rx =>
      if entry.1 ∉ st.2 ∧ rx.accepts (pyStrip word_group) = true then
        (dictInsert entry.1 index st.1, entry.1 :: st.2)
      else st
  | none => st

def regexPass (platform_generics : List (String × ExpectedPostCharacteristicInfo))
    (word_group : String) (index : ℕ)
    (st : List (String × ℕ) × List String) :
    List (String × ℕ) × List String :=
  match platform_generics with
  | [] => st
  | entry :: rest =>
      regexPass rest word_group index (regexStep word_group index st entry)

/-- The literal tier of the indexing loop body: record the fragment text at
the current index, or under a `*`-decorated key when the text is already a
key (so the original claim is not overwritten). -/
def literalPass (word_group : String) (index : ℕ)
    (pos : List (String × ℕ)) : List (String × ℕ) :=
  match dictGet word_group pos with
  | none => dictInsert word_group index pos
  | some _ => dictInsert (word_group ++ "*") index pos

/-- One iteration of `for index, word_group in enumerate(...)`. -/
def processOneFragment
    (platform_generics : List (String × ExpectedPostCharacteristicInfo))
    (st : List (String × ℕ) × List String) (index : ℕ)
    (word_group : String) : List (String × ℕ) × List String :=
  let st' := regexPass platform_generics word_group index st
  (literalPass word_group index st'.1, st'.2)

/-- The indexing loop, with the enumeration counter made explicit. -/
def indexFragmentsLoop
    (platform_generics : List (String × ExpectedPostCharacteristicInfo)) :
    ℕ → List String → (List (String × ℕ) × List String) →
    List (String × ℕ) × List String
  | _, [], st => st
  | i, wg :: rest, st =>
      indexFragmentsLoop platform_generics (i + 1) rest
        (processOneFragment platform_generics st i wg)

/-- The dict `word_group_positions` as computed by
`is_probably_their_platform_post`. -/
def wordGroupPositions
    (platform_generics : List (String × ExpectedPostCharacteristicInfo))
    (extracted_image_texts : List String) : List (String × ℕ) :=
  (indexFragmentsLoop platform_generics 0 extracted_image_texts ([], [])).1

/-! ## Platform Match Scorer -/

/-- The method `TweetCompiler._within_n_positions`.  The BACK test compares
`len(word_group_to_index) - index` (an `int` in Python, hence computed in
`ℤ` here) with `n`. -/
def withinNPositions (word_group : String)
    (word_group_to_index : List (String × ℕ)) (n : ℕ) (from_end : Bool) :
    Bool :=
  match dictGet word_group word_group_to_index with
  | none => false
  | some i =>
      if from_end = false then decide (i < n)
      else decide ((word_group_to_index.length : ℤ) - (i : ℤ) ≤ (n : ℤ))

/-- The count `probability_points` of `is_probably_their_platform_post`: one point per
characteristic whose recorded position satisfies its edge constraint. -/
def probabilityPoints (extracted_image_texts : List String)
    (platform_generics : List (String × ExpectedPostCharacteristicInfo)) :
    ℕ :=
  (platform_generics.filter
    (fun p => withinNPositions p.1
      (wordGroupPositions platform_generics extracted_image_texts)
      p.2.position_threshold p.2.from_end)).length

/-- The scoring half of `is_probably_their_platform_post`: accepted when
`points / total ≥ threshold`, and `False` outright for an empty catalog
(`total_points` zero). -/
def isProbablyTheirPlatformPost (extracted_image_texts : List String)
    (platform_generics : List (String × ExpectedPostCharacteristicInfo))
    (probability_threshold : ℚ) : Bool :=
  let total_points := platform_generics.length
  if total_points ≠ 0 then
    decide
      ((probabilityPoints extracted_image_texts platform_generics : ℚ) /
        (total_points : ℚ) ≥ probability_threshold)
  else false

/-- The confidence score itself: `probability_points / total_points`, and
`0` when the catalog is empty (the guard that in the source short-circuits
to `False` before any division). -/
def platformPostScore (extracted_image_texts : List String)
    (platform_generics : List (String × ExpectedPostCharacteristicInfo)) :
    ℚ :=
  let total_points := platform_generics.length
  if total_points ≠ 0 then
    (probabilityPoints extracted_image_texts platform_generics : ℚ) /
      (total_points : ℚ)
  else 0

/-- The fragment list of the specification's worked scenario. -/
def untruthScenarioFragments : List String :=
  ["Truth Details", "3 replies", "Donald J. Trump", "@realDonaldTrump",
   "This is the body", "11.0k ReTruths", "50.2k Likes"]

/-! ## Fuzzy Deduplicator (`dedupe_combined_tweets_list`)

`fuzz.ratio` from fuzzywuzzy is an external pure similarity function on a
0–100 scale; it is supplied as the explicit parameter `ratio`. -/

def TWEET_DEDUPE_FUZZY_MATCH_THRESHOLD : ℕ := 80

/-- The inner `for deduped in deduped_tweets_list ... break` loop: is the
candidate tweet similar (at or above the fixed threshold) to anything
already kept? -/
def isDuplicateOf (ratio : String → String → ℕ)
    (deduped_tweets_list : List String) (tweet : String) : Bool :=
  deduped_tweets_list.any
    (fun deduped =>
      TWEET_DEDUPE_FUZZY_MATCH_THRESHOLD ≤ ratio tweet deduped)

/-- The outer loop of `dedupe_combined_tweets_list`, with the accumulator
(`deduped_tweets_list`) explicit. -/
def dedupeLoop (ratio : String → String → ℕ) :
    List String → List String → List String
  | [], deduped_tweets_list => deduped_tweets_list
  | tweet :: rest, deduped_tweets_list =>
      dedupeLoop ratio rest
        (if isDuplicateOf ratio deduped_tweets_list tweet then
          deduped_tweets_list
        else deduped_tweets_list ++ [tweet])

/-- The function `dedupe_combined_tweets_list` of `utils.py`. -/
def dedupe_combined_tweets_list (ratio : String → String → ℕ)
    (combined_tweets_list : List String) : List String :=
  dedupeLoop ratio combined_tweets_list []

/-! ## Corpus Assembler (`create_combined_corpus`)

`random.randrange` is modelled by an explicit stream of draws
`draws : ℕ → ℕ`: the `k`-th call to `randrange(n)` returns `draws k % n`,
and raises `ValueError` when `n = 0` exactly as Python does.  The Python
function mutates `full_tweets_list` in place and returns the joined
corpus; the model returns the final contents of that list together with
the corpus so that the mutation is observable. -/

def QUOTE_INSERTION_WINDOW_SIZE : ℕ := 5

def MY_DUMB_INFINITE_LOOP_PREVENTER : ℕ := 1000

/-- Python `random.randrange(n)` on the next stream value `d`. -/
def pyRandrange (n : ℕ) (d : ℕ) : Except String ℕ :=
  if n = 0 then Except.error "empty range for randrange" else Except.ok (d % n)

/-- Python `list.insert(i, x)` for a nonnegative index: insert before
position `i`, clamping to append when `i` exceeds the length. -/
def pyInsert (i : ℕ) (x : String) (l : List String) : List String :=
  l.take i ++ x :: l.drop i

/-- The mutable state of the insertion loop in `create_combined_corpus`:
the tweet list being mutated, the used-position set, the global retry
counter `there_just_isnt_enough`, and the position in the random stream. -/
structure AsmState where
  tweets : List String
  seen_neighbor_indices : Finset ℤ
  there_just_isnt_enough : ℕ
  rpos : ℕ
  deriving DecidableEq

/-- The `while index_to_insert_at in seen_neighbor_indices and
there_just_isnt_enough < MY_DUMB_INFINITE_LOOP_PREVENTER` redraw loop.
The remaining retry budget `MY_DUMB_INFINITE_LOOP_PREVENTER - counter`
is passed as the structural argument `fuel` (so `counter < limit` is
exactly `0 < fuel`); the last three arguments are the current candidate
index, the stream position and the retry counter. -/
def retryDraw (num_tweets : ℕ) (draws : ℕ → ℕ) (seen : Finset ℤ) :
    ℕ → ℕ → ℕ → ℕ → Except String (ℕ × ℕ × ℕ)
  | fuel, i, rp, counter =>
      if (i : ℤ) ∈ seen then
        match fuel with
        | 0 => Except.ok (i, rp, counter)
        | fuel' + 1 =>
            match pyRandrange num_tweets (draws rp) with
            | Except.error e => Except.error e
            | Except.ok i' =>
                retryDraw num_tweets draws seen fuel' i' (rp + 1) (counter + 1)
      else Except.ok (i, rp, counter)

/-- Draw the insertion index for one quote: the initial
`random.randrange(num_tweets)` followed by the redraw loop.  Returns the
accepted index, the new stream position and the new retry counter. -/
def chooseInsertIndex (num_tweets : ℕ) (draws : ℕ → ℕ) (st : AsmState) :
    Except String (ℕ × ℕ × ℕ) :=
  match pyRandrange num_tweets (draws st.rpos) with
  | Except.error e => Except.error e
  | Except.ok i0 =>
      retryDraw num_tweets draws st.seen_neighbor_indices
        (MY_DUMB_INFINITE_LOOP_PREVENTER - st.there_just_isnt_enough) i0
        (st.rpos + 1) st.there_just_isnt_enough

/-- The update `seen_neighbor_indices.update([*range(i - W, i), *range(i, i + W)])`. -/
def markNeighborIndices (i : ℕ) (seen : Finset ℤ) : Finset ℤ :=
  seen ∪ Finset.Ico ((i : ℤ) - (QUOTE_INSERTION_WINDOW_SIZE : ℤ)) (i : ℤ) ∪
    Finset.Ico (i : ℤ) ((i : ℤ) + (QUOTE_INSERTION_WINDOW_SIZE : ℤ))

/-- One iteration of `for quote in villain_quotes_list`. -/
def stepQuote (num_tweets : ℕ) (draws : ℕ → ℕ) (st : AsmState)
    (quote : String) : Except String AsmState :=
  match chooseInsertIndex num_tweets draws st with
  | Except.error e => Except.error e
  | Except.ok (i, rp', ctr') =>
      Except.ok
        ⟨pyInsert i quote st.tweets,
         markNeighborIndices i st.seen_neighbor_indices, ctr', rp'⟩

/-- The whole quote-insertion loop. -/
def insertQuotesLoop (num_tweets : ℕ) (draws : ℕ → ℕ) :
    List String → AsmState → Except String AsmState
  | [], st => Except.ok st
  | q :: rest, st =>
      match stepQuote num_tweets draws st q with
      | Except.error e => Except.error e
      | Except.ok st' => insertQuotesLoop num_tweets draws rest st'

/-- The function `create_combined_corpus` of `utils.py`.  Here `num_tweets` is computed once, before
any insertion, exactly as in the source.  The returned pair is (final
contents of `full_tweets_list`, the joined corpus string). -/
def create_combined_corpus (full_tweets_list villain_quotes_list : List String)
    (draws : ℕ → ℕ) : Except String (List String × String) :=
  match insertQuotesLoop full_tweets_list.length draws villain_quotes_list
      ⟨full_tweets_list, ∅, 0, 0⟩ with
  | Except.error e => Except.error e
  | Except.ok st => Except.ok (st.tweets, String.intercalate " " st.tweets)

/-! ## Text Cleaner (`clean_extracted_texts`)

The two residual filters call `float(text)` and
`dateutil.parser.parse(re.sub("am|pm", "", text.lower()))`, both guarded
by `re.search("\d", text)`, swallowing parse exceptions.  `float` is
modelled by `pyFloat?` below; the dateutil parser is an explicit oracle
parameter (`true` iff parsing succeeds — a parsed `datetime` is always
truthy). -/

/-- The guard `re.search("\d", text)` (ASCII digits). -/
def containsDigit (s : String) : Bool := s.data.any Char.isDigit

/-- Generic `re.sub(pat, "", s)`-style driver for patterns without
boundary context: at each position either consume a match or keep one
character.  `fuel` bounds the scan; since every step consumes at least one
character, `length + 1` always suffices. -/
def scanSubNoPrev (matchAt : List Char → Option (List Char)) :
    ℕ → List Char → List Char
  | 0, l => l
  | _ + 1, [] => []
  | fuel + 1, c :: rest =>
      match matchAt (c :: rest) with
      | some remainder => scanSubNoPrev matchAt fuel remainder
      | none => c :: scanSubNoPrev matchAt fuel rest

/-- Python `text.replace(old, "")` for a nonempty `old`: remove all
non-overlapping occurrences, scanning left to right. -/
def pyReplaceEmpty (s : String) (old : String) : String :=
  ⟨scanSubNoPrev
    (fun l =>
      if old.data ≠ [] ∧ old.data.isPrefixOf l then
        some (l.drop old.data.length)
      else none)
    (s.data.length + 1) s.data⟩

/-- The landmark-stripping loop over
`chain(untruth_social_generics.items(), twix_generics.items())`: a regex
characteristic strips via `re.sub(regex.rstrip("$"), "", text.strip())`, a
literal one removes all occurrences of its identifier. -/
def stripLandmarks
    (generics : List (String × ExpectedPostCharacteristicInfo))
    (text : String) : String :=
  generics.foldl
    (fun text p =>
      match p.2.regex with
      | some rx => rx.stripAll (pyStrip text)
      | none => pyReplaceEmpty text p.1)
    text

/-! ### Python `float()` -/

/-- Result of a successful `float(text)` call.  A finite value is kept in
unevaluated scientific form — mantissa digits as a natural number, the
number of fractional digits, the signed decimal exponent, and the sign —
whose rational value is `pyFloatValue`. -/
inductive PyFloatVal where
  | num : ℕ → ℕ → ℤ → Bool → PyFloatVal
  | infVal : PyFloatVal
  | nanVal : PyFloatVal
  deriving DecidableEq

/-- The rational value of a finite parsed float. -/
def pyFloatValue : PyFloatVal → Option ℚ
  | PyFloatVal.num m fracLen e neg =>
      some ((if neg then (-1 : ℚ) else 1) * (m : ℚ) / (10 : ℚ) ^ fracLen *
        (10 : ℚ) ^ e)
  | _ => none

/-- Python truthiness of a float: everything except (plus or minus) zero,
NaN included, is truthy.  A finite value `±m / 10^f · 10^e` is zero
exactly when the mantissa `m` is zero (`pyFloatTruthy_eq_value_ne_zero`
below). -/
def pyFloatTruthy : PyFloatVal → Bool
  | PyFloatVal.num m _ _ _ => decide (m ≠ 0)
  | PyFloatVal.infVal => true
  | PyFloatVal.nanVal => true

/-- Continue a digit group: digits, with single underscores allowed
between digits (Python numeric-literal grooming).  Returns the collected
digits and the unconsumed remainder. -/
def takeDigitsMore : List Char → List Char × List Char
  | [] => ([], [])
  | c :: rest =>
      if c.isDigit then
        let (ds, r) := takeDigitsMore rest
        (c :: ds, r)
      else if c = '_' then
        match rest with
        | d :: rest' =>
            if d.isDigit then
              let (ds, r) := takeDigitsMore rest'
              (d :: ds, r)
            else ([], c :: rest)
        | [] => ([], [c])
      else ([], c :: rest)

/-- A digit group must start with a digit. -/
def takeDigitsGroup (l : List Char) : List Char × List Char :=
  match l with
  | c :: rest =>
      if c.isDigit then
        let (ds, r) := takeDigitsMore rest
        (c :: ds, r)
      else ([], l)
  | [] => ([], l)

def digitsToNat (ds : List Char) : ℕ :=
  ds.foldl (fun acc c => 10 * acc + (c.toNat - '0'.toNat)) 0

/-- Optional exponent part `(e|E)(+|-)?digits`; yields the signed exponent
and the remainder (exponent `0` when no `e`/`E` follows). -/
def parseExponent : List Char → Option (ℤ × List Char)
  | [] => some (0, [])
  | c :: r =>
      if c = 'e' ∨ c = 'E' then
        match r with
        | '+' :: r2 =>
            let (ds, rem) := takeDigitsGroup r2
            if ds.isEmpty then none else some ((digitsToNat ds : ℤ), rem)
        | '-' :: r2 =>
            let (ds, rem) := takeDigitsGroup r2
            if ds.isEmpty then none else some (-(digitsToNat ds : ℤ), rem)
        | _ =>
            let (ds, rem) := takeDigitsGroup r
            if ds.isEmpty then none else some ((digitsToNat ds : ℤ), rem)
      else some (0, c :: r)

/-- The numeric body of a Python float literal (sign already consumed):
`digits [. digits] [exponent]` with at least one mantissa digit, consuming
the whole input.  Yields (mantissa digits as a number, count of fractional
digits, exponent). -/
def parseFloatNumeric (l : List Char) : Option (ℕ × ℕ × ℤ) :=
  let (ip, l1) := takeDigitsGroup l
  let (fp, l2) :=
    match l1 with
    | '.' :: r => takeDigitsGroup r
    | _ => ([], l1)
  if ip.isEmpty ∧ fp.isEmpty then none
  else
    match parseExponent l2 with
    | none => none
    | some (e, l3) =>
        if l3.isEmpty then some (digitsToNat (ip ++ fp), fp.length, e)
        else none

/-- The body of `float(text)` after the optional sign: `inf`, `infinity`
and `nan` (case-insensitive) or a numeric literal. -/
def parseFloatBody (neg : Bool) (l : List Char) : Option PyFloatVal :=
  let low := l.map Char.toLower
  if low = "inf".data ∨ low = "infinity".data then some PyFloatVal.infVal
  else if low = "nan".data then some PyFloatVal.nanVal
  else
    (parseFloatNumeric l).map
      (fun p => PyFloatVal.num p.1 p.2.1 p.2.2 neg)

/-- Python `float(s)`: `some` value on success, `none` when Python raises
`ValueError` (the `OverflowError` case also yields a raise, hence `none`
is the right model for both caught exceptions). -/
def pyFloat? (s : String) : Option PyFloatVal :=
  let l := ((s.data.dropWhile isPyWs).reverse.dropWhile isPyWs).reverse
  match l with
  | '+' :: r => parseFloatBody false r
  | '-' :: r => parseFloatBody true r
  | _ => parseFloatBody false l

/-! ### The `OTHER_REGEXES_TO_CLEAN` pass and the date-parser input -/

def pyLowerStr (s : String) : String := ⟨s.data.map Char.toLower⟩

/-- One step table for `re.sub("am|pm", "", ·)`. -/
def amPmMatchAt (l : List Char) : Option (List Char) :=
  if "am".data.isPrefixOf l ∨ "pm".data.isPrefixOf l then some (l.drop 2)
  else none

/-- The argument the source hands to `dateutil.parser.parse`:
`re.sub("am|pm", "", text.lower())`. -/
def dateParseInput (text : String) : String :=
  ⟨scanSubNoPrev amPmMatchAt ((pyLowerStr text).data.length + 1)
    (pyLowerStr text).data⟩

/-- Substitution driver for patterns with a leading `\b`: the previous original
character is threaded through, and a successful match reports the last
character it consumed. -/
def scanSubPrev
    (matchAt : Option Char → List Char → Option (Char × List Char)) :
    ℕ → Option Char → List Char → List Char
  | 0, _, l => l
  | _ + 1, _, [] => []
  | fuel + 1, prev, c :: rest =>
      match matchAt prev (c :: rest) with
      | some (lastc, remainder) => scanSubPrev matchAt fuel (some lastc) remainder
      | none => c :: scanSubPrev matchAt fuel (some c) rest

/-- Matcher for `Twitter for [a-zA-Z]+` (no boundary context needed). -/
def matchTwitterForAt (_ : Option Char) (l : List Char) :
    Option (Char × List Char) :=
  if "Twitter for ".data.isPrefixOf l then
    let r := l.drop 12
    match r with
    | c :: _ =>
        if c.isAlpha then
          some ((r.takeWhile Char.isAlpha).getLastD c,
            r.dropWhile Char.isAlpha)
        else none
    | [] => none
  else none

/-- Word characters `\w` (ASCII). -/
def isWordChar (c : Char) : Bool := c.isAlphanum || c = '_'

def monthNames : List String :=
  ["Jan", "Feb", "Mar", "Apr", "May", "Jun", "Jul", "Aug", "Sep", "Oct",
   "Nov", "Dec"]

def matchMonthAt (l : List Char) : Option (List Char) :=
  if monthNames.any (fun m => m.data.isPrefixOf l) then some (l.drop 3)
  else none

/-- Whitespace run `\s+`. -/
def reqSpaces1 (l : List Char) : Option (List Char) :=
  match l with
  | c :: _ => if isPyWs c then some (l.dropWhile isPyWs) else none
  | [] => none

/-- Digits `\d{1,2}` immediately followed by the literal separator (greedy with
the one-step backtrack the full pattern permits). -/
def digits12Then (sep : Char) : List Char → Option (List Char)
  | d1 :: rest =>
      if d1.isDigit then
        match rest with
        | d2 :: s :: r2 =>
            if d2.isDigit then (if s = sep then some r2 else none)
            else if d2 = sep then some (s :: r2)
            else none
        | d2 :: [] => if d2 = sep then some [] else none
        | [] => none
      else none
  | [] => none

/-- Digits `\d{4}`. -/
def digits4 : List Char → Option (List Char)
  | a :: b :: c :: d :: r =>
      if a.isDigit ∧ b.isDigit ∧ c.isDigit ∧ d.isDigit then some r else none
  | _ => none

/-- Digits `\d{2}`. -/
def digits2 : List Char → Option (List Char)
  | a :: b :: r => if a.isDigit ∧ b.isDigit then some r else none
  | _ => none

/-- Separator `\s*,?\s*`. -/
def optCommaSpaces (l : List Char) : List Char :=
  let l1 := l.dropWhile isPyWs
  let l2 := match l1 with | ',' :: r => r | _ => l1
  l2.dropWhile isPyWs

def matchAmPmUpper (l : List Char) : Option (List Char) :=
  if "AM".data.isPrefixOf l ∨ "PM".data.isPrefixOf l then some (l.drop 2)
  else none

/-- Matcher for the long-form date pattern
`\b(Jan|…|Dec)\s+\d{1,2},\s+\d{4}\s*,?\s*\d{1,2}:\d{2}\s*(AM|PM)\b`. -/
def matchLongDateAt (prev : Option Char) (l : List Char) :
    Option (Char × List Char) :=
  if (match prev with | some p => isWordChar p | none => false) then none
  else
    (matchMonthAt l).bind fun l1 =>
    (reqSpaces1 l1).bind fun l2 =>
    (digits12Then ',' l2).bind fun l3 =>
    (reqSpaces1 l3).bind fun l4 =>
    (digits4 l4).bind fun l5 =>
    (digits12Then ':' (optCommaSpaces l5)).bind fun l7 =>
    (digits2 l7).bind fun l8 =>
    (matchAmPmUpper (l8.dropWhile isPyWs)).bind fun l10 =>
    match l10 with
    | c :: _ => if isWordChar c then none else some ('M', l10)
    | [] => some ('M', ([] : List Char))

/-- The `for other_regex in OTHER_REGEXES_TO_CLEAN` pass.  The frozenset
iterates in unspecified order; the two substitutions are applied
client-pattern first (they are independent on all evaluated inputs). -/
def subOtherRegexes (text : String) : String :=
  let t1 : String :=
    ⟨scanSubPrev matchTwitterForAt (text.data.length + 1) none text.data⟩
  ⟨scanSubPrev matchLongDateAt (t1.data.length + 1) none t1.data⟩

/-- The digit-guarded number/date filters: `false` means the fragment is
dropped (`continue`).  `dparse` is the dateutil oracle. -/
def passesNumberDateFilters (dparse : String → Bool) (text : String) :
    Bool :=
  if containsDigit text then
    match pyFloat? text with
    | some v =>
        if pyFloatTruthy v then false
        else if dparse (dateParseInput text) then false
        else true
    | none => if dparse (dateParseInput text) then false else true
  else true

/-- The per-fragment body of `clean_extracted_texts`: `none` when the
fragment is discarded, `some` of the cleaned text when it is kept. -/
def cleanOneText (dparse : String → Bool)
    (generics : List (String × ExpectedPostCharacteristicInfo))
    (text : String) : Option String :=
  let t := stripLandmarks generics text
  if passesNumberDateFilters dparse t then
    let t2 := subOtherRegexes t
    if t2 = "" then none else some t2
  else none

/-- The method `TweetCompiler.clean_extracted_texts`. -/
def clean_extracted_texts (dparse : String → Bool)
    (generics : List (String × ExpectedPostCharacteristicInfo))
    (extracted_texts : List String) : List String :=
  extracted_texts.filterMap (cleanOneText dparse generics)

/-! ## Concrete runs used by counterexamples -/

/-- A six-element body list for exercising the insertion window. -/
def c7Bodies : List String := ["a", "b", "c", "d", "e", "f"]

/-- The used-position set after inserting one quote, all random draws
returning `0` (so the accepted index is `0`). -/
def c7SeenAfterFirstInsert : Finset ℤ :=
  match insertQuotesLoop 6 (fun _ => 0) ["q"] ⟨c7Bodies, ∅, 0, 0⟩ with
  | Except.ok st => st.seen_neighbor_indices
  | Except.error _ => ∅

/-- The index decision of that first insertion. -/
def c7FirstChoice : Except String (ℕ × ℕ × ℕ) :=
  chooseInsertIndex 6 (fun _ => 0) ⟨c7Bodies, ∅, 0, 0⟩

/-- The assembler state after that first insertion, written out. -/
def c7StateAfterInsert : AsmState :=
  ⟨["q", "a", "b", "c", "d", "e", "f"],
   (∅ : Finset ℤ) ∪ Finset.Ico (-5 : ℤ) 0 ∪ Finset.Ico (0 : ℤ) 5, 0, 1⟩



/-! # Theorems -/

/-! ## Dictionary lemmas -/

theorem dictGet_dictInsert_self (k : String) (v : ℕ) (d : List (String × ℕ)) :
    dictGet k (dictInsert k v d) = some v := by
  induction d with
  | nil => simp [dictGet, dictInsert]
  | cons p rest ih =>
      obtain ⟨k', v'⟩ := p
      by_cases h : k' = k
      · simp [dictInsert, h, dictGet]
      · simp [dictInsert, h, dictGet, ih]

theorem dictGet_dictInsert_ne (k k' : String) (v : ℕ)
    (d : List (String × ℕ)) (h : k' ≠ k) :
    dictGet k (dictInsert k' v d) = dictGet k d := by
  induction d with
  | nil => simp [dictGet, dictInsert, h]
  | cons p rest ih =>
      obtain ⟨k'', v''⟩ := p
      by_cases h2 : k'' = k'
      · subst h2
        have h3 : ¬ k'' = k := h
        simp [dictInsert, dictGet, h3]
      · simp only [dictInsert, if_neg h2, dictGet]
        split <;> simp [ih]

theorem dictGet_eq_none_iff (k : String) (d : List (String × ℕ)) :
    dictGet k d = none ↔ k ∉ d.map Prod.fst := by
  induction d with
  | nil => simp [dictGet]
  | cons p rest ih =>
      obtain ⟨k', v'⟩ := p
      by_cases h : k' = k
      · simp [dictGet, h]
      · simp [dictGet, h, ih]
        intro hk
        exact fun heq => h heq.symm

theorem map_fst_dictInsert_mem (k : String) (v : ℕ) (d : List (String × ℕ))
    (h : k ∈ d.map Prod.fst) :
    (dictInsert k v d).map Prod.fst = d.map Prod.fst := by
  induction d with
  | nil => simp at h
  | cons p rest ih =>
      obtain ⟨k', v'⟩ := p
      by_cases h2 : k' = k
      · simp [dictInsert, h2]
      · have : k ∈ rest.map Prod.fst := by
          simp at h
          rcases h with h | h
          · exact absurd h.symm h2
          · simpa using h
        simp [dictInsert, h2, ih this]

theorem map_fst_dictInsert_not_mem (k : String) (v : ℕ)
    (d : List (String × ℕ)) (h : k ∉ d.map Prod.fst) :
    (dictInsert k v d).map Prod.fst = d.map Prod.fst ++ [k] := by
  induction d with
  | nil => simp [dictInsert]
  | cons p rest ih =>
      obtain ⟨k', v'⟩ := p
      have h2 : k' ≠ k := by
        intro hk
        exact h (by simp [hk])
      have h3 : k ∉ rest.map Prod.fst := fun hk => h (by simp [hk])
      simp [dictInsert, h2, ih h3]

theorem nodup_map_fst_dictInsert (k : String) (v : ℕ)
    (d : List (String × ℕ)) (h : (d.map Prod.fst).Nodup) :
    ((dictInsert k v d).map Prod.fst).Nodup := by
  by_cases hm : k ∈ d.map Prod.fst
  · rw [map_fst_dictInsert_mem k v d hm]
    exact h
  · rw [map_fst_dictInsert_not_mem k v d hm]
    exact List.Nodup.append h (List.nodup_singleton k)
      (List.disjoint_singleton.mpr hm)

/-! ## The positions dict has pairwise-distinct keys -/

theorem nodup_regexStep (wg : String) (i : ℕ)
    (st : List (String × ℕ) × List String)
    (e : String × ExpectedPostCharacteristicInfo)
    (h : (st.1.map Prod.fst).Nodup) :
    (((regexStep wg i st e).1).map Prod.fst).Nodup := by
  unfold regexStep
  rcases e.2.regex with _ | rx
  · exact h
  · dsimp only
    split
    · exact nodup_map_fst_dictInsert _ _ _ h
    · exact h

theorem nodup_regexPass (g : List (String × ExpectedPostCharacteristicInfo))
    (wg : String) (i : ℕ) (st : List (String × ℕ) × List String)
    (h : (st.1.map Prod.fst).Nodup) :
    (((regexPass g wg i st).1).map Prod.fst).Nodup := by
  induction g generalizing st with
  | nil => exact h
  | cons e rest ih => exact ih _ (nodup_regexStep wg i st e h)

theorem nodup_literalPass (wg : String) (i : ℕ) (pos : List (String × ℕ))
    (h : (pos.map Prod.fst).Nodup) :
    ((literalPass wg i pos).map Prod.fst).Nodup := by
  unfold literalPass
  split <;> exact nodup_map_fst_dictInsert _ _ _ h

theorem nodup_processOneFragment
    (g : List (String × ExpectedPostCharacteristicInfo))
    (st : List (String × ℕ) × List String) (i : ℕ) (wg : String)
    (h : (st.1.map Prod.fst).Nodup) :
    (((processOneFragment g st i wg).1).map Prod.fst).Nodup := by
  unfold processOneFragment
  exact nodup_literalPass _ _ _ (nodup_regexPass g wg i st h)

theorem nodup_indexFragmentsLoop
    (g : List (String × ExpectedPostCharacteristicInfo))
    (texts : List String) (i : ℕ) (st : List (String × ℕ) × List String)
    (h : (st.1.map Prod.fst).Nodup) :
    (((indexFragmentsLoop g i texts st).1).map Prod.fst).Nodup := by
  induction texts generalizing i st with
  | nil => exact h
  | cons wg rest ih =>
      exact ih _ _ (nodup_processOneFragment g st i wg h)

theorem nodup_wordGroupPositions
    (g : List (String × ExpectedPostCharacteristicInfo))
    (texts : List String) :
    ((wordGroupPositions g texts).map Prod.fst).Nodup :=
  nodup_indexFragmentsLoop g texts 0 ([], []) (by simp)

/-! ## C1: the worked Untruth Social scenario -/

/-- C1: for the fragment list `["Truth Details", "3 replies",
"Donald J. Trump", "@realDonaldTrump", "This is the body",
"11.0k ReTruths", "50.2k Likes"]` scored against the Trump Untruth Social
profile (FRONT: literal "Truth Details" within 5, "replies" regex within
6, full name within 7, handle within 8; BACK: "ReTruths" regex within 6
from the end, "Likes" regex within 5 from the end), all six
characteristics score a point, the score equals 1, and the classifier
reports a match at threshold 0.4. -/
theorem untruth_scenario_full_score_matches :
    probabilityPoints untruthScenarioFragments trumpUntruthGenerics = 6 ∧
    trumpUntruthGenerics.length = 6 ∧
    platformPostScore untruthScenarioFragments trumpUntruthGenerics = 1 ∧
    isProbablyTheirPlatformPost untruthScenarioFragments
      trumpUntruthGenerics (2 / 5) = true := by
  have h : probabilityPoints untruthScenarioFragments trumpUntruthGenerics
      = 6 := by decide
  have ht : trumpUntruthGenerics.length = 6 := by decide
  refine ⟨h, ht, ?_, ?_⟩
  · simp only [platformPostScore, h, ht]
    norm_num
  · simp only [isProbablyTheirPlatformPost, h, ht]
    norm_num

/-! ## C4: empty catalog -/

/-- C4: for every fragment list and every threshold, scoring against an
empty characteristic catalog yields score `0` and no match (the
`total_points` guard short-circuits to `False` instead of dividing by
zero). -/
theorem empty_catalog_scores_zero_no_match (texts : List String)
    (probability_threshold : ℚ) :
    platformPostScore texts [] = 0 ∧
    isProbablyTheirPlatformPost texts [] probability_threshold = false := by
  constructor
  · simp [platformPostScore]
  · simp [isProbablyTheirPlatformPost]

/-! ## C3: the BACK edge test divides by the number of distinct keys -/

/-- C3: for every fragment list and every BACK characteristic of the
catalog whose key was recorded at index `i`, the characteristic scores a
point exactly when `(number of distinct keys of the PositionIndex) - i ≤
edge distance` — the count of distinct indexed keys, not the raw fragment
count. -/
theorem back_edge_point_iff_distinct_key_count
    (frags : List String)
    (catalog : List (String × ExpectedPostCharacteristicInfo))
    (name : String) (info : ExpectedPostCharacteristicInfo) (i : ℕ)
    (hmem : (name, info) ∈ catalog) (hback : info.from_end = true)
    (hrec : dictGet name (wordGroupPositions catalog frags) = some i) :
    (withinNPositions name (wordGroupPositions catalog frags)
        info.position_threshold info.from_end = true ↔
      ((((wordGroupPositions catalog frags).map Prod.fst).dedup.length : ℤ)
        - (i : ℤ) ≤ (info.position_threshold : ℤ))) := by
  have hnd := nodup_wordGroupPositions catalog frags
  have hdedup : ((wordGroupPositions catalog frags).map Prod.fst).dedup
      = (wordGroupPositions catalog frags).map Prod.fst :=
    List.dedup_eq_self.mpr hnd
  rw [hback]
  unfold withinNPositions
  rw [hrec]
  simp [hdedup]

/-- Witness for C3, at the "likes" BACK characteristic of the worked
scenario: recorded index 6, ten distinct keys, edge distance 5, so
`10 - 6 ≤ 5` and the point is scored. -/
theorem back_edge_point_iff_distinct_key_count_witness :
    (LIKES, (⟨some untruthLikesRegex, 5, true⟩ :
        ExpectedPostCharacteristicInfo)) ∈ trumpUntruthGenerics ∧
    (⟨some untruthLikesRegex, 5, true⟩ :
        ExpectedPostCharacteristicInfo).from_end = true ∧
    dictGet LIKES (wordGroupPositions trumpUntruthGenerics
      untruthScenarioFragments) = some 6 ∧
    (withinNPositions LIKES
        (wordGroupPositions trumpUntruthGenerics untruthScenarioFragments)
        5 true = true ↔
      ((((wordGroupPositions trumpUntruthGenerics
          untruthScenarioFragments).map Prod.fst).dedup.length : ℤ)
        - (6 : ℤ) ≤ (5 : ℤ))) := by
  have hmem : (LIKES, (⟨some untruthLikesRegex, 5, true⟩ :
      ExpectedPostCharacteristicInfo)) ∈ trumpUntruthGenerics := by
    unfold trumpUntruthGenerics get_untruth_social_generics
    exact List.mem_cons_of_mem _ (List.mem_cons_of_mem _
      (List.mem_cons_of_mem _ (List.mem_cons_of_mem _
        (List.mem_cons_of_mem _ (List.mem_cons_self _ _)))))
  have hrec : dictGet LIKES (wordGroupPositions trumpUntruthGenerics
      untruthScenarioFragments) = some 6 := by decide
  exact ⟨hmem, rfl, hrec,
    back_edge_point_iff_distinct_key_count untruthScenarioFragments
      trumpUntruthGenerics LIKES _ 6 hmem rfl hrec⟩

/-! ## C2: regex characteristics claim exactly one index, the first match -/

theorem star_key_ne (wg name : String)
    (hstar : name.data.getLast? ≠ some '*') : wg ++ "*" ≠ name := by
  intro h
  apply hstar
  rw [← h]
  show ((wg ++ "*").data).getLast? = some '*'
  have hd : (wg ++ "*").data = wg.data ++ ['*'] := rfl
  rw [hd]
  exact List.getLast?_concat _

/-- In a catalog with pairwise-distinct keys, the entry holding a given
key is unique. -/
theorem nodup_key_unique
    (catalog : List (String × ExpectedPostCharacteristicInfo))
    (name : String) (info : ExpectedPostCharacteristicInfo)
    (hnd : (catalog.map Prod.fst).Nodup) (hmem : (name, info) ∈ catalog) :
    ∀ e ∈ catalog, e.1 = name → e.2 = info := by
  induction catalog with
  | nil => simp at hmem
  | cons e0 rest ih =>
      simp only [List.map_cons, List.nodup_cons] at hnd
      intro e he hke
      rcases List.mem_cons.mp hmem with hm0 | hmrest
      · rcases List.mem_cons.mp he with he0 | herest
        · rw [he0, ← hm0]
        · exfalso
          apply hnd.1
          have hmm : e.1 ∈ List.map Prod.fst rest :=
            List.mem_map_of_mem Prod.fst herest
          rw [hke] at hmm
          rw [← hm0]
          exact hmm
      · rcases List.mem_cons.mp he with he0 | herest
        · exfalso
          apply hnd.1
          rw [← he0, hke]
          exact List.mem_map_of_mem Prod.fst hmrest
        · exact ih hnd.2 hmrest e herest hke

theorem regexStep_preserve (name wg : String) (i : ℕ) (v : ℕ)
    (st : List (String × ℕ) × List String)
    (e : String × ExpectedPostCharacteristicInfo)
    (hc : name ∈ st.2) (hp : dictGet name st.1 = some v) :
    name ∈ (regexStep wg i st e).2 ∧
      dictGet name (regexStep wg i st e).1 = some v := by
  unfold regexStep
  rcases he : e.2.regex with _ | rx
  · exact ⟨hc, hp⟩
  · dsimp only
    split
    · next hcond =>
        have hne : e.1 ≠ name := fun h => hcond.1 (h ▸ hc)
        exact ⟨List.mem_cons_of_mem _ hc,
          (dictGet_dictInsert_ne name e.1 i st.1 hne).trans hp⟩
    · exact ⟨hc, hp⟩

theorem regexPass_preserve (name : String)
    (g : List (String × ExpectedPostCharacteristicInfo)) (wg : String)
    (i v : ℕ) (st : List (String × ℕ) × List String)
    (hc : name ∈ st.2) (hp : dictGet name st.1 = some v) :
    name ∈ (regexPass g wg i st).2 ∧
      dictGet name (regexPass g wg i st).1 = some v := by
  induction g generalizing st with
  | nil => exact ⟨hc, hp⟩
  | cons e rest ih =>
      have h := regexStep_preserve name wg i v st e hc hp
      exact ih _ h.1 h.2

theorem literalPass_preserve (name wg : String) (i v : ℕ)
    (pos : List (String × ℕ))
    (hstar : name.data.getLast? ≠ some '*')
    (hp : dictGet name pos = some v) :
    dictGet name (literalPass wg i pos) = some v := by
  unfold literalPass
  rcases hd : dictGet wg pos with _ | w
  · have hne : wg ≠ name := by
      intro h
      rw [h, hp] at hd
      exact Option.noConfusion hd
    exact (dictGet_dictInsert_ne name wg i pos hne).trans hp
  · exact (dictGet_dictInsert_ne name (wg ++ "*") i pos
      (star_key_ne wg name hstar)).trans hp

theorem processOneFragment_preserve (name : String)
    (g : List (String × ExpectedPostCharacteristicInfo))
    (st : List (String × ℕ) × List String) (i v : ℕ) (wg : String)
    (hstar : name.data.getLast? ≠ some '*')
    (hc : name ∈ st.2) (hp : dictGet name st.1 = some v) :
    name ∈ (processOneFragment g st i wg).2 ∧
      dictGet name (processOneFragment g st i wg).1 = some v := by
  unfold processOneFragment
  have h := regexPass_preserve name g wg i v st hc hp
  exact ⟨h.1, literalPass_preserve name wg i v _ hstar h.2⟩

theorem indexLoop_preserve (name : String)
    (g : List (String × ExpectedPostCharacteristicInfo))
    (texts : List String) (i v : ℕ)
    (st : List (String × ℕ) × List String)
    (hstar : name.data.getLast? ≠ some '*')
    (hc : name ∈ st.2) (hp : dictGet name st.1 = some v) :
    name ∈ (indexFragmentsLoop g i texts st).2 ∧
      dictGet name (indexFragmentsLoop g i texts st).1 = some v := by
  induction texts generalizing i st with
  | nil => exact ⟨hc, hp⟩
  | cons wg rest ih =>
      have h := processOneFragment_preserve name g st i v wg hstar hc hp
      exact ih _ _ h.1 h.2

theorem regexPass_no_claim (name : String)
    (info : ExpectedPostCharacteristicInfo) (rx : PostRegex)
    (g : List (String × ExpectedPostCharacteristicInfo)) (wg : String)
    (i : ℕ) (st : List (String × ℕ) × List String)
    (hsub : ∀ e ∈ g, e.1 = name → e.2 = info)
    (hrx : info.regex = some rx)
    (hfail : rx.accepts (pyStrip wg) = false)
    (hun : name ∉ st.2) :
    name ∉ (regexPass g wg i st).2 := by
  induction g generalizing st with
  | nil => exact hun
  | cons e rest ih =>
      have hsub' : ∀ e' ∈ rest, e'.1 = name → e'.2 = info :=
        fun e' he' => hsub e' (List.mem_cons_of_mem _ he')
      have hstep : name ∉ (regexStep wg i st e).2 := by
        unfold regexStep
        rcases he : e.2.regex with _ | rx'
        · exact hun
        · dsimp only
          split
          · next hcond =>
              intro hmem
              rcases List.mem_cons.mp hmem with h1 | h2
              · have hinfo : e.2 = info :=
                  hsub e (List.mem_cons_self _ _) h1.symm
                rw [hinfo, hrx] at he
                have hrr : rx' = rx := by
                  injection he.symm
                rw [h1.symm] at hcond
                rw [hrr] at hcond
                rw [hcond.2] at hfail
                exact Bool.noConfusion hfail
              · exact hun h2
          · exact hun
      exact ih (regexStep wg i st e) hsub' hstep

theorem regexPass_claims (name : String)
    (info : ExpectedPostCharacteristicInfo) (rx : PostRegex)
    (g : List (String × ExpectedPostCharacteristicInfo)) (wg : String)
    (i : ℕ) (st : List (String × ℕ) × List String)
    (hsub : ∀ e ∈ g, e.1 = name → e.2 = info)
    (hrx : info.regex = some rx)
    (hmatch : rx.accepts (pyStrip wg) = true)
    (hun : name ∉ st.2) (hing : (name, info) ∈ g) :
    name ∈ (regexPass g wg i st).2 ∧
      dictGet name (regexPass g wg i st).1 = some i := by
  induction g generalizing st with
  | nil => simp at hing
  | cons e rest ih =>
      have hrw : regexPass (e :: rest) wg i st
          = regexPass rest wg i (regexStep wg i st e) := rfl
      by_cases hk : e.1 = name
      · have hinfo : e.2 = info := hsub e (List.mem_cons_self _ _) hk
        have hstep : regexStep wg i st e =
            (dictInsert name i st.1, name :: st.2) := by
          unfold regexStep
          rw [hinfo, hrx]
          dsimp only
          rw [if_pos]
          · rw [hk]
          · rw [hk]
            exact ⟨hun, hmatch⟩
        rw [hrw, hstep]
        exact regexPass_preserve name rest wg i i
          (dictInsert name i st.1, name :: st.2)
          (List.mem_cons_self _ _) (dictGet_dictInsert_self name i st.1)
      · have hing' : (name, info) ∈ rest := by
          rcases List.mem_cons.mp hing with h1 | h2
          · exact absurd (congrArg Prod.fst h1.symm) hk
          · exact h2
        have hsub' : ∀ e' ∈ rest, e'.1 = name → e'.2 = info :=
          fun e' he' => hsub e' (List.mem_cons_of_mem _ he')
        have hstepun : name ∉ (regexStep wg i st e).2 := by
          unfold regexStep
          rcases he : e.2.regex with _ | rx'
          · exact hun
          · dsimp only
            split
            · intro hmem
              rcases List.mem_cons.mp hmem with h1 | h2
              · exact hk h1.symm
              · exact hun h2
            · exact hun
        rw [hrw]
        exact ih (regexStep wg i st e) hsub' hstepun hing'

theorem indexLoop_first_match (name : String)
    (info : ExpectedPostCharacteristicInfo) (rx : PostRegex)
    (catalog : List (String × ExpectedPostCharacteristicInfo))
    (texts : List String) (i : ℕ) (st : List (String × ℕ) × List String)
    (hsub : ∀ e ∈ catalog, e.1 = name → e.2 = info)
    (hrx : info.regex = some rx)
    (hstar : name.data.getLast? ≠ some '*')
    (hmem : (name, info) ∈ catalog)
    (hun : name ∉ st.2)
    (hex : ∃ s ∈ texts, rx.accepts (pyStrip s) = true) :
    name ∈ (indexFragmentsLoop catalog i texts st).2 ∧
      dictGet name (indexFragmentsLoop catalog i texts st).1 =
        some (i + texts.findIdx (fun s => rx.accepts (pyStrip s))) := by
  induction texts generalizing i st with
  | nil =>
      rcases hex with ⟨s, hs, _⟩
      simp at hs
  | cons s rest ih =>
      have hrw : indexFragmentsLoop catalog i (s :: rest) st
          = indexFragmentsLoop catalog (i + 1) rest
              (processOneFragment catalog st i s) := rfl
      by_cases hm : rx.accepts (pyStrip s) = true
      · have hfidx :
            (s :: rest).findIdx (fun s => rx.accepts (pyStrip s)) = 0 := by
          simp [List.findIdx_cons, hm]
        rw [hrw, hfidx]
        have hclaim := regexPass_claims name info rx catalog s i st hsub
          hrx hm hun hmem
        have hpos : dictGet name (processOneFragment catalog st i s).1 =
            some i := by
          unfold processOneFragment
          exact literalPass_preserve name s i i _ hstar hclaim.2
        have hcl : name ∈ (processOneFragment catalog st i s).2 := by
          unfold processOneFragment
          exact hclaim.1
        have := indexLoop_preserve name catalog rest (i + 1) i
          (processOneFragment catalog st i s) hstar hcl hpos
        simpa using this
      · have hm' : rx.accepts (pyStrip s) = false :=
          Bool.not_eq_true _ ▸ eq_false_of_ne_true hm
        have hfidx : (s :: rest).findIdx (fun s => rx.accepts (pyStrip s))
            = rest.findIdx (fun s => rx.accepts (pyStrip s)) + 1 := by
          simp [List.findIdx_cons, hm']
        have hex' : ∃ s' ∈ rest, rx.accepts (pyStrip s') = true := by
          rcases hex with ⟨s', hs', hacc⟩
          rcases List.mem_cons.mp hs' with h1 | h2
          · rw [h1] at hacc
            exact absurd hacc hm
          · exact ⟨s', h2, hacc⟩
        have hun' : name ∉ (processOneFragment catalog st i s).2 := by
          unfold processOneFragment
          exact regexPass_no_claim name info rx catalog s i st hsub hrx
            hm' hun
        have hih := ih (i + 1) (processOneFragment catalog st i s) hun' hex'
        rw [hrw, hfidx]
        have harith : i + (rest.findIdx (fun s => rx.accepts (pyStrip s)) + 1)
            = (i + 1) + rest.findIdx (fun s => rx.accepts (pyStrip s)) := by
          omega
        rw [harith]
        exact hih

theorem indexLoop_append
    (g : List (String × ExpectedPostCharacteristicInfo))
    (l1 l2 : List String) (i : ℕ) (st : List (String × ℕ) × List String) :
    indexFragmentsLoop g i (l1 ++ l2) st
      = indexFragmentsLoop g (i + l1.length) l2
          (indexFragmentsLoop g i l1 st) := by
  induction l1 generalizing i st with
  | nil => simp [indexFragmentsLoop]
  | cons s rest ih =>
      have hrw : indexFragmentsLoop g i ((s :: rest) ++ l2) st
          = indexFragmentsLoop g (i + 1) (rest ++ l2)
              (processOneFragment g st i s) := rfl
      have hrw2 : indexFragmentsLoop g i (s :: rest) st
          = indexFragmentsLoop g (i + 1) rest
              (processOneFragment g st i s) := rfl
      rw [hrw, ih, hrw2]
      have : i + 1 + rest.length = i + (rest.length + 1) := by omega
      rw [this]
      rfl

/-- C2: for every catalog (with pairwise-distinct keys, as a Python dict
guarantees) and every regex characteristic of it whose key is not
`*`-decorated, whenever some fragment of the list matches the pattern
(after trimming), the Position Indexer records exactly the index of the
*first* matching fragment for that characteristic — and appending further
fragments (in particular a second fragment matching the same pattern)
does not change the recorded index. -/
theorem regex_claim_once_first_match
    (catalog : List (String × ExpectedPostCharacteristicInfo))
    (name : String) (info : ExpectedPostCharacteristicInfo)
    (rx : PostRegex) (frags rest : List String)
    (hnd : (catalog.map Prod.fst).Nodup)
    (hmem : (name, info) ∈ catalog)
    (hrx : info.regex = some rx)
    (hstar : name.data.getLast? ≠ some '*')
    (hex : ∃ s ∈ frags, rx.accepts (pyStrip s) = true) :
    dictGet name (wordGroupPositions catalog frags) =
      some (frags.findIdx (fun s => rx.accepts (pyStrip s))) ∧
    dictGet name (wordGroupPositions catalog (frags ++ rest)) =
      some (frags.findIdx (fun s => rx.accepts (pyStrip s))) := by
  have hsub := nodup_key_unique catalog name info hnd hmem
  have h1 := indexLoop_first_match name info rx catalog frags 0 ([], [])
    hsub hrx hstar hmem (by simp) hex
  constructor
  · unfold wordGroupPositions
    simpa using h1.2
  · unfold wordGroupPositions
    rw [indexLoop_append]
    have h2 := indexLoop_preserve name catalog rest (0 + frags.length)
      (0 + frags.findIdx (fun s => rx.accepts (pyStrip s)))
      (indexFragmentsLoop catalog 0 frags ([], [])) hstar h1.1 h1.2
    simpa using h2.2

/-- Witness for C2: in the worked scenario the "replies" characteristic
records index 1 (the fragment `"3 replies"`), and appending a second
matching fragment `"4 replies"` leaves the recorded index unchanged. -/
theorem regex_claim_once_first_match_witness :
    ((trumpUntruthGenerics.map Prod.fst).Nodup) ∧
    (REPLIES, (⟨some repliesRegex, 6, false⟩ :
        ExpectedPostCharacteristicInfo)) ∈ trumpUntruthGenerics ∧
    (∃ s ∈ untruthScenarioFragments,
      repliesRegex.accepts (pyStrip s) = true) ∧
    (dictGet REPLIES
        (wordGroupPositions trumpUntruthGenerics untruthScenarioFragments) =
      some (untruthScenarioFragments.findIdx
        (fun s => repliesRegex.accepts (pyStrip s))) ∧
    dictGet REPLIES
        (wordGroupPositions trumpUntruthGenerics
          (untruthScenarioFragments ++ ["4 replies"])) =
      some (untruthScenarioFragments.findIdx
        (fun s => repliesRegex.accepts (pyStrip s)))) := by
  have hnd : (trumpUntruthGenerics.map Prod.fst).Nodup := by decide
  have hmem : (REPLIES, (⟨some repliesRegex, 6, false⟩ :
      ExpectedPostCharacteristicInfo)) ∈ trumpUntruthGenerics := by
    unfold trumpUntruthGenerics get_untruth_social_generics
    exact List.mem_cons_of_mem _ (List.mem_cons_self _ _)
  have hex : ∃ s ∈ untruthScenarioFragments,
      repliesRegex.accepts (pyStrip s) = true :=
    ⟨"3 replies", by decide, by decide⟩
  exact ⟨hnd, hmem, hex,
    regex_claim_once_first_match trumpUntruthGenerics REPLIES _
      repliesRegex untruthScenarioFragments ["4 replies"] hnd hmem rfl
      (by decide) hex⟩

/-! ## C6, C10: Fuzzy Deduplicator -/

/-- No element of the list is a (threshold-)duplicate of the elements
before it.  This is the invariant `dedupe_combined_tweets_list`
establishes for its output. -/
def noEarlierDup (ratio : String → String → ℕ) (l : List String) : Prop :=
  ∀ as t bs, l = as ++ t :: bs → isDuplicateOf ratio as t = false

theorem dedupeLoop_acc_append (ratio : String → String → ℕ)
    (l acc : List String) :
    ∃ ys, dedupeLoop ratio l acc = acc ++ ys := by
  induction l generalizing acc with
  | nil => exact ⟨[], by simp [dedupeLoop]⟩
  | cons t rest ih =>
      by_cases hd : isDuplicateOf ratio acc t = true
      · rcases ih acc with ⟨ys, hys⟩
        refine ⟨ys, ?_⟩
        show dedupeLoop ratio rest
          (if isDuplicateOf ratio acc t then acc else acc ++ [t]) = acc ++ ys
        rw [if_pos hd]
        exact hys
      · rcases ih (acc ++ [t]) with ⟨ys, hys⟩
        refine ⟨t :: ys, ?_⟩
        show dedupeLoop ratio rest
          (if isDuplicateOf ratio acc t then acc else acc ++ [t]) =
            acc ++ t :: ys
        rw [if_neg hd, hys]
        simp

theorem append_singleton_decomp (l : List String) (x : String)
    (as : List String) (u : String) (bs : List String)
    (h : l ++ [x] = as ++ u :: bs) :
    (as = l ∧ u = x ∧ bs = []) ∨
      (∃ bs', l = as ++ u :: bs' ∧ bs = bs' ++ [x]) := by
  rcases List.eq_nil_or_concat bs with hb | ⟨bs', y, hb⟩
  · subst hb
    have h2 : l ++ [x] = as ++ [u] := h
    have h3 := List.append_inj' h2 rfl
    exact Or.inl ⟨h3.1.symm, (List.cons.injEq _ _ _ _ ▸ h3.2).1.symm, rfl⟩
  · subst hb
    have h2 : l ++ [x] = (as ++ u :: bs') ++ [y] := by
      rw [h]
      simp
    have h3 := List.append_inj' h2 rfl
    have hy : x = y := by
      have := h3.2
      injection this
    exact Or.inr ⟨bs', h3.1, by rw [List.concat_eq_append, hy]⟩

theorem noEarlierDup_append (ratio : String → String → ℕ)
    (acc : List String) (t : String)
    (hinv : noEarlierDup ratio acc)
    (hd : isDuplicateOf ratio acc t = false) :
    noEarlierDup ratio (acc ++ [t]) := by
  intro as u bs h
  rcases append_singleton_decomp acc t as u bs h with ⟨h1, h2, _⟩ | ⟨bs', h1, _⟩
  · rw [h1, h2]
    exact hd
  · exact hinv as u bs' h1

theorem noEarlierDup_dedupeLoop (ratio : String → String → ℕ)
    (l acc : List String) (hinv : noEarlierDup ratio acc) :
    noEarlierDup ratio (dedupeLoop ratio l acc) := by
  induction l generalizing acc with
  | nil => exact hinv
  | cons t rest ih =>
      by_cases hd : isDuplicateOf ratio acc t = true
      · show noEarlierDup ratio (dedupeLoop ratio rest
          (if isDuplicateOf ratio acc t then acc else acc ++ [t]))
        rw [if_pos hd]
        exact ih acc hinv
      · show noEarlierDup ratio (dedupeLoop ratio rest
          (if isDuplicateOf ratio acc t then acc else acc ++ [t]))
        rw [if_neg hd]
        exact ih (acc ++ [t])
          (noEarlierDup_append ratio acc t hinv
            (Bool.not_eq_true _ ▸ eq_false_of_ne_true hd))

theorem dedupeLoop_fixed (ratio : String → String → ℕ)
    (ws : List String) (hw : noEarlierDup ratio ws) :
    ∀ bs as, ws = as ++ bs → dedupeLoop ratio bs as = ws := by
  intro bs
  induction bs with
  | nil =>
      intro as h
      simpa [dedupeLoop] using h.symm
  | cons t bs' ih =>
      intro as h
      have hd : isDuplicateOf ratio as t = false := hw as t bs' h
      show dedupeLoop ratio bs'
        (if isDuplicateOf ratio as t then as else as ++ [t]) = ws
      rw [if_neg (by rw [hd]; exact Bool.false_ne_true)]
      exact ih (as ++ [t]) (by rw [h]; simp)

/-- C6: the Fuzzy Deduplicator is idempotent — for every similarity
function (in particular fuzzywuzzy's `fuzz.ratio`) and every list of post
bodies, applying `dedupe_combined_tweets_list` to its own output returns
that output unchanged. -/
theorem dedupe_idempotent (ratio : String → String → ℕ)
    (combined_tweets_list : List String) :
    dedupe_combined_tweets_list ratio
        (dedupe_combined_tweets_list ratio combined_tweets_list) =
      dedupe_combined_tweets_list ratio combined_tweets_list := by
  have hA := noEarlierDup_dedupeLoop ratio combined_tweets_list []
    (fun as t bs h => by simp at h)
  exact dedupeLoop_fixed ratio _ hA _ [] rfl

/-- C10: the Fuzzy Deduplicator keeps the first body — for every
similarity function, the empty list maps to the empty list, and a
non-empty list maps to a non-empty list whose head is the input's head. -/
theorem dedupe_keeps_first_element (ratio : String → String → ℕ) :
    dedupe_combined_tweets_list ratio [] = [] ∧
    ∀ x xs, ∃ ys,
      dedupe_combined_tweets_list ratio (x :: xs) = x :: ys := by
  constructor
  · rfl
  · intro x xs
    unfold dedupe_combined_tweets_list
    have hstep : dedupeLoop ratio (x :: xs) [] = dedupeLoop ratio xs [x] := by
      show dedupeLoop ratio xs
        (if isDuplicateOf ratio [] x then [] else [] ++ [x]) = _
      simp [isDuplicateOf]
    rw [hstep]
    rcases dedupeLoop_acc_append ratio xs [x] with ⟨ys, hys⟩
    exact ⟨ys, by rw [hys]; rfl⟩

/-! ## C8: empty body list with quotes to insert -/

/-- C8: when the body list is empty and at least one quote is to be
inserted, `create_combined_corpus` fails on its very first
`random.randrange(0)` call (Python raises `ValueError`) instead of
silently returning an empty corpus — for every quote list and every
random stream. -/
theorem empty_bodies_quote_insertion_errors (q : String)
    (qs : List String) (draws : ℕ → ℕ) :
    create_combined_corpus [] (q :: qs) draws =
      Except.error "empty range for randrange" := rfl

/-! ## C7: the marked window around an accepted insertion index -/

theorem stepQuote_seen_mono (num_tweets : ℕ) (draws : ℕ → ℕ)
    (st : AsmState) (q : String) (st' : AsmState)
    (h : stepQuote num_tweets draws st q = Except.ok st') :
    st.seen_neighbor_indices ⊆ st'.seen_neighbor_indices := by
  unfold stepQuote at h
  cases hc : chooseInsertIndex num_tweets draws st with
  | error e =>
      rw [hc] at h
      exact Except.noConfusion h
  | ok t =>
      rw [hc] at h
      obtain ⟨i, rp, ctr⟩ := t
      injection h with h'
      rw [← h']
      intro j hj
      unfold markNeighborIndices
      simp only [Finset.mem_union]
      exact Or.inl (Or.inl hj)

theorem insertQuotesLoop_seen_mono (num_tweets : ℕ) (draws : ℕ → ℕ)
    (qs : List String) (st st' : AsmState)
    (h : insertQuotesLoop num_tweets draws qs st = Except.ok st') :
    st.seen_neighbor_indices ⊆ st'.seen_neighbor_indices := by
  induction qs generalizing st with
  | nil =>
      injection h with h'
      rw [h']
  | cons q rest ih =>
      unfold insertQuotesLoop at h
      cases hs : stepQuote num_tweets draws st q with
      | error e =>
          rw [hs] at h
          exact Except.noConfusion h
      | ok st1 =>
          rw [hs] at h
          exact subset_trans
            (stepQuote_seen_mono num_tweets draws st q st1 hs) (ih st1 h)

/-- C7 (counterexample): with six bodies, one quote and a random stream
that always yields `0`, the accepted insertion index is `0`, the code
marks exactly `[-5, 5)` — so position `index + QUOTE_INSERTION_WINDOW_SIZE
= 5` is *not* in the used-position set, refuting the claimed inclusive
range `[index - 5, index + 5]`. -/
theorem quote_window_upper_bound_not_marked :
    c7FirstChoice = Except.ok (0, 1, 0) ∧
    (5 : ℤ) ∉ c7SeenAfterFirstInsert ∧
    Finset.Ico (-5 : ℤ) 5 ⊆ c7SeenAfterFirstInsert := by
  refine ⟨rfl, by decide, by decide⟩

/-- C7 (amended): after a quote is inserted at an accepted index `i`,
every integer position in the half-open range
`[i - QUOTE_INSERTION_WINDOW_SIZE, i + QUOTE_INSERTION_WINDOW_SIZE)` is in
the used-position set, and remains in it after any number of further
quote insertions. -/
theorem quote_window_marked_half_open_persists
    (num_tweets : ℕ) (draws : ℕ → ℕ) (st : AsmState) (q : String)
    (rest : List String) (k : ℕ) (i rp ctr : ℕ) (st1 st2 : AsmState)
    (hchoose : chooseInsertIndex num_tweets draws st = Except.ok (i, rp, ctr))
    (hstep : stepQuote num_tweets draws st q = Except.ok st1)
    (hloop : insertQuotesLoop num_tweets draws (rest.take k) st1 =
      Except.ok st2) :
    Finset.Ico ((i : ℤ) - (QUOTE_INSERTION_WINDOW_SIZE : ℤ))
        ((i : ℤ) + (QUOTE_INSERTION_WINDOW_SIZE : ℤ)) ⊆
      st2.seen_neighbor_indices := by
  have hst1 : st1 = ⟨pyInsert i q st.tweets,
      markNeighborIndices i st.seen_neighbor_indices, ctr, rp⟩ := by
    unfold stepQuote at hstep
    rw [hchoose] at hstep
    injection hstep with h'
    exact h'.symm
  have hmark : Finset.Ico ((i : ℤ) - (QUOTE_INSERTION_WINDOW_SIZE : ℤ))
      ((i : ℤ) + (QUOTE_INSERTION_WINDOW_SIZE : ℤ)) ⊆
        st1.seen_neighbor_indices := by
    rw [hst1]
    intro j hj
    show j ∈ markNeighborIndices i st.seen_neighbor_indices
    unfold markNeighborIndices
    simp only [Finset.mem_union, Finset.mem_Ico] at hj ⊢
    by_cases hj2 : j < (i : ℤ)
    · exact Or.inl (Or.inr ⟨hj.1, hj2⟩)
    · exact Or.inr ⟨le_of_not_lt hj2, hj.2⟩
  exact subset_trans hmark
    (insertQuotesLoop_seen_mono num_tweets draws (rest.take k) st1 st2 hloop)

/-- Witness for the amended C7, on the six-body run: the step inserting
the single quote at index `0` marks `[-5, 5)`. -/
theorem quote_window_marked_half_open_persists_witness :
    chooseInsertIndex 6 (fun _ => 0) ⟨c7Bodies, ∅, 0, 0⟩ =
      Except.ok (0, 1, 0) ∧
    stepQuote 6 (fun _ => 0) ⟨c7Bodies, ∅, 0, 0⟩ "q" =
      Except.ok c7StateAfterInsert ∧
    insertQuotesLoop 6 (fun _ => 0) (List.take 0 []) c7StateAfterInsert =
      Except.ok c7StateAfterInsert ∧
    Finset.Ico ((0 : ℤ) - (QUOTE_INSERTION_WINDOW_SIZE : ℤ))
        ((0 : ℤ) + (QUOTE_INSERTION_WINDOW_SIZE : ℤ)) ⊆
      c7StateAfterInsert.seen_neighbor_indices := by
  have h1 : chooseInsertIndex 6 (fun _ => 0) ⟨c7Bodies, ∅, 0, 0⟩ =
      Except.ok (0, 1, 0) := rfl
  have h2 : stepQuote 6 (fun _ => 0) ⟨c7Bodies, ∅, 0, 0⟩ "q" =
      Except.ok c7StateAfterInsert := by decide
  have h3 : insertQuotesLoop 6 (fun _ => 0) (List.take 0 [])
      c7StateAfterInsert = Except.ok c7StateAfterInsert := rfl
  exact ⟨h1, h2, h3,
    quote_window_marked_half_open_persists 6 (fun _ => 0)
      ⟨c7Bodies, ∅, 0, 0⟩ "q" [] 0 0 1 0 c7StateAfterInsert
      c7StateAfterInsert h1 h2 h3⟩

/-! ## C9: the assembler mutates its input list -/

theorem pyInsert_sublist (i : ℕ) (x : String) (l : List String) :
    l.Sublist (pyInsert i x l) := by
  unfold pyInsert
  conv_lhs => rw [← List.take_append_drop i l]
  exact List.Sublist.append_left (List.sublist_cons_self x (l.drop i)) _

theorem pyInsert_length (i : ℕ) (x : String) (l : List String) :
    (pyInsert i x l).length = l.length + 1 := by
  unfold pyInsert
  simp only [List.length_append, List.length_cons, List.length_take,
    List.length_drop]
  omega

theorem insertQuotesLoop_tweets (num_tweets : ℕ) (draws : ℕ → ℕ)
    (qs : List String) (st st' : AsmState)
    (h : insertQuotesLoop num_tweets draws qs st = Except.ok st') :
    st.tweets.Sublist st'.tweets ∧
      st'.tweets.length = st.tweets.length + qs.length := by
  induction qs generalizing st with
  | nil =>
      injection h with h'
      rw [h']
      exact ⟨List.Sublist.refl _, rfl⟩
  | cons q rest ih =>
      unfold insertQuotesLoop at h
      cases hs : stepQuote num_tweets draws st q with
      | error e =>
          rw [hs] at h
          exact Except.noConfusion h
      | ok st1 =>
          rw [hs] at h
          have hstep : st.tweets.Sublist st1.tweets ∧
              st1.tweets.length = st.tweets.length + 1 := by
            unfold stepQuote at hs
            cases hc : chooseInsertIndex num_tweets draws st with
            | error e =>
                rw [hc] at hs
                exact Except.noConfusion hs
            | ok t =>
                rw [hc] at hs
                obtain ⟨i, rp, ctr⟩ := t
                injection hs with h'
                rw [← h']
                exact ⟨pyInsert_sublist i q st.tweets,
                  pyInsert_length i q st.tweets⟩
          have hrest := ih st1 h
          refine ⟨hstep.1.trans hrest.1, ?_⟩
          rw [hrest.2, hstep.2]
          simp [List.length_cons]
          omega

/-- C9 (counterexample): `create_combined_corpus` mutates the body list it
is handed: with body list `["a"]`, one quote `"q"` and a stream of zero
draws, the list afterwards holds `["q", "a"]`, not its original
contents. -/
theorem assembler_mutates_input_list :
    create_combined_corpus ["a"] ["q"] (fun _ => 0) =
      Except.ok (["q", "a"], "q a") ∧
    (["q", "a"] : List String) ≠ ["a"] := ⟨rfl, by decide⟩

/-- C9 (amended): the assembler's only effect on the body list is quote
insertion — whenever the call succeeds, the original body list survives in
order as a sublist of the post-call list, whose length grew by exactly the
number of quotes (so with no quotes the list is unchanged). -/
theorem assembler_extends_input_list (full_tweets_list
    villain_quotes_list : List String) (draws : ℕ → ℕ)
    (out : List String × String)
    (h : create_combined_corpus full_tweets_list villain_quotes_list draws =
      Except.ok out) :
    full_tweets_list.Sublist out.1 ∧
      out.1.length = full_tweets_list.length + villain_quotes_list.length := by
  unfold create_combined_corpus at h
  cases hl : insertQuotesLoop full_tweets_list.length draws
      villain_quotes_list ⟨full_tweets_list, ∅, 0, 0⟩ with
  | error e =>
      rw [hl] at h
      exact Except.noConfusion h
  | ok st =>
      rw [hl] at h
      injection h with h'
      rw [← h']
      exact insertQuotesLoop_tweets full_tweets_list.length draws
        villain_quotes_list ⟨full_tweets_list, ∅, 0, 0⟩ st hl

/-- Witness for the amended C9: the `["a"]`/`["q"]` run yields
`["q", "a"]`, of which `["a"]` is a sublist, with length `1 + 1`. -/
theorem assembler_extends_input_list_witness :
    create_combined_corpus ["a"] ["q"] (fun _ => 0) =
      Except.ok (["q", "a"], "q a") ∧
    (["a"] : List String).Sublist ["q", "a"] ∧
    (["q", "a"] : List String).length = (["a"] : List String).length +
      (["q"] : List String).length := by
  have h : create_combined_corpus ["a"] ["q"] (fun _ => 0) =
      Except.ok (["q", "a"], "q a") := rfl
  exact ⟨h, assembler_extends_input_list ["a"] ["q"] (fun _ => 0)
    (["q", "a"], "q a") h⟩

/-! ## C5: the number filter keeps a fragment that parses to 0.0 -/

/-- Truthiness of a parsed finite float agrees with its rational value
being nonzero, so `pyFloatTruthy` is a faithful model of
`if its_just_a_number:`. -/
theorem pyFloatTruthy_eq_value_ne_zero (m fracLen : ℕ) (e : ℤ)
    (neg : Bool) :
    pyFloatTruthy (PyFloatVal.num m fracLen e neg) = true ↔
      pyFloatValue (PyFloatVal.num m fracLen e neg) ≠ some 0 := by
  have h10f : (10 : ℚ) ^ fracLen ≠ 0 := pow_ne_zero _ (by norm_num)
  have h10e : (10 : ℚ) ^ e ≠ 0 := zpow_ne_zero _ (by norm_num)
  have hsign : (if neg then (-1 : ℚ) else 1) ≠ 0 := by
    cases neg <;> norm_num
  simp only [pyFloatTruthy, pyFloatValue, decide_eq_true_iff, ne_eq,
    Option.some.injEq]
  rw [not_iff_not]
  constructor
  · intro hm
    rw [hm]
    simp
  · intro hexpr
    by_contra hm
    exact (mul_ne_zero (div_ne_zero (mul_ne_zero hsign
      ((Nat.cast_ne_zero (R := ℚ)).mpr hm)) h10f) h10e) hexpr

/-- C5 (evaluation at the failing input): the fragment `"0"` contains a
digit, its text after landmark stripping is `"0"`, and `float("0")`
succeeds with value `0.0` — yet the Text Cleaner *keeps* it: the filter
tests the truthiness of the parsed value (`if its_just_a_number:`)
instead of the parse success the claim describes, `0.0` is falsy, and the
subsequent date attempt raises (`dateutil` resolves a lone `"0"` as day 0
of the month, which is out of range — hypothesis `h`). -/
theorem zero_fragment_survives_cleaner (dparse : String → Bool)
    (h : dparse "0" = false) :
    clean_extracted_texts dparse trumpCombinedGenerics ["0"] = ["0"] ∧
    containsDigit "0" = true ∧
    pyFloat? (stripLandmarks trumpCombinedGenerics "0") =
      some (PyFloatVal.num 0 0 0 false) := by
  have hstrip : stripLandmarks trumpCombinedGenerics "0" = "0" := by decide
  have hfloat : pyFloat? "0" = some (PyFloatVal.num 0 0 0 false) := by
    decide
  have hpass : passesNumberDateFilters dparse "0" =
      (if dparse "0" then false else true) := rfl
  have hpass2 : passesNumberDateFilters dparse "0" = true := by
    rw [hpass, h]
    rfl
  have hone : cleanOneText dparse trumpCombinedGenerics "0" = some "0" := by
    show (if passesNumberDateFilters dparse
        (stripLandmarks trumpCombinedGenerics "0") then
      (if subOtherRegexes (stripLandmarks trumpCombinedGenerics "0") = ""
        then none
        else some (subOtherRegexes
          (stripLandmarks trumpCombinedGenerics "0")))
      else none) = some "0"
    rw [hstrip, hpass2]
    decide
  refine ⟨?_, by decide, by rw [hstrip]; exact hfloat⟩
  show List.filterMap (cleanOneText dparse trumpCombinedGenerics) ["0"] =
    ["0"]
  rw [List.filterMap_cons, hone]
  rfl

/-- Witness for C5's evaluation theorem, with the dateutil oracle
instantiated by the constantly-failing parser. -/
theorem zero_fragment_survives_cleaner_witness :
    ((fun _ : String => false) "0" = false) ∧
    clean_extracted_texts (fun _ => false) trumpCombinedGenerics ["0"] =
      ["0"] ∧
    containsDigit "0" = true ∧
    pyFloat? (stripLandmarks trumpCombinedGenerics "0") =
      some (PyFloatVal.num 0 0 0 false) := by
  have h := zero_fragment_survives_cleaner (fun _ => false) rfl
  exact ⟨rfl, h.1, h.2.1, h.2.2⟩
